import Mathlib

set_option maxHeartbeats 1000000

/-! Shallow embedding of the build-redis store and command engine
(the feature-complete variant: scalar entries with optional expiration,
lists, the append-only file, loadAOF replay, processCommand dispatch). -/

/-- Model of Go strings.Split(s, " ") at the character level: splits around
every single space, preserving empty fragments between consecutive spaces. -/
def splitChars : List Char → List (List Char)
  | [] => [[]]
  | c :: rest =>
    if c = ' ' then [] :: splitChars rest
    else
      match splitChars rest with
      | [] => [[c]]
      | w :: ws => (c :: w) :: ws

/-- Model of Go strings.Join(parts, " ") at the character level. -/
def joinChars : List (List Char) → List Char
  | [] => []
  | [w] => w
  | w :: x :: xs => w ++ ' ' :: joinChars (x :: xs)

/-- strings.Split(s, " ") on Lean strings. -/
def splitSpace (s : String) : List String := (splitChars s.data).map String.mk

/-- strings.Join(parts, " ") on Lean strings. -/
def joinSpace (parts : List String) : String := String.mk (joinChars (parts.map String.data))

/-- Go StoredValue: a scalar value with an expiration time.Time; `none`
models the zero time (expiration.IsZero(), i.e. no expiration). -/
structure StoredValue where
  value : String
  expiration : Option Int
  deriving DecidableEq, Repr

/-- The RedisStore state: the scalar map `data`, the list map `listData`,
the logging gate `writeAOFEnabled`, and the lines appended so far to the
redisstore.aof file (oldest first, stored without the trailing newline). -/
structure RedisStore where
  data : String → Option StoredValue
  listData : String → Option (List String)
  writeAOFEnabled : Bool
  aof : List String

/-- The serialized log record Sprintf("%s %s", command, strings.Join(args, " ")),
without the trailing newline. -/
def logLine (command : String) (args : List String) : String :=
  command ++ " " ++ joinSpace args

/-- writeAOF: appends the serialized record to the AOF, unless the gate is off. -/
def RedisStore.writeAOF (r : RedisStore) (command : String) (args : List String) : RedisStore :=
  if r.writeAOFEnabled then
    { r with aof := r.aof ++ [logLine command args] }
  else r

/-- Pointwise update of the scalar map (Go map assignment / delete). -/
def dataUpd (m : String → Option StoredValue) (key : String) (v : Option StoredValue) :
    String → Option StoredValue :=
  fun k => if k = key then v else m k

/-- Go r.data[key] = v (or delete when v = none) on the store. -/
def RedisStore.setData (r : RedisStore) (key : String) (v : Option StoredValue) : RedisStore :=
  { r with data := dataUpd r.data key v }

/-- ListPush: r.listData[key] = append(r.listData[key], value); a missing
key reads as nil, so the first push creates the list. -/
def RedisStore.ListPush (r : RedisStore) (key value : String) : RedisStore :=
  { r with listData :=
      fun k => if k = key then some (((r.listData key).getD []) ++ [value]) else r.listData k }

/-- ListPop: returns ("", false) when len(r.listData[key]) == 0 (missing or
empty), else removes and returns the head, reassigning the tail slice. -/
def RedisStore.ListPop (r : RedisStore) (key : String) : RedisStore × String × Bool :=
  match (r.listData key).getD [] with
  | [] => (r, "", false)
  | v :: rest =>
    ({ r with listData := fun k => if k = key then some rest else r.listData k }, v, true)

/-- Set: unconditional overwrite of the scalar entry, then writeAOF("SET", key, value.value). -/
def RedisStore.Set (r : RedisStore) (key : String) (value : StoredValue) : RedisStore :=
  (r.setData key (some value)).writeAOF "SET" [key, value.value]

/-- SetWithExpiration: stores expiration = time.Now().Add(duration), then
writeAOF("SET", key, value) — note the log record drops the expiration. -/
def RedisStore.SetWithExpiration (r : RedisStore) (key value : String) (now seconds : Int) :
    RedisStore :=
  (r.setData key (some { value := value, expiration := some (now + seconds) })).writeAOF
    "SET" [key, value]

/-- Get: absent key reads false; an entry with a set expiration reads false
when time.Now().After(expiration), i.e. now > e; no mutation, no logging. -/
def RedisStore.Get (r : RedisStore) (key : String) (now : Int) : RedisStore × String × Bool :=
  match r.data key with
  | none => (r, "", false)
  | some sv =>
    match sv.expiration with
    | some e => if now > e then (r, "", false) else (r, sv.value, true)
    | none => (r, sv.value, true)

/-- Del: delete(r.data, key), then writeAOF("DEL", key). -/
def RedisStore.Del (r : RedisStore) (key : String) : RedisStore :=
  (r.setData key none).writeAOF "DEL" [key]

/-- HMSet applied to the sequence of map entries in the order Go's range
visits them: each field is stored as a scalar entry at key + "." + field
with no expiration, and each field logs its own HMSET record. -/
def RedisStore.HMSet (r : RedisStore) (key : String) (values : List (String × String)) :
    RedisStore :=
  values.foldl
    (fun acc kv =>
      (acc.setData (key ++ "." ++ kv.1) (some { value := kv.2, expiration := none })).writeAOF
        "HMSET" [key, kv.1, kv.2])
    r

/-- Go map assignment m[k] = v on an association-list representation of a
map[string]string: overwrite in place if the key exists, else append. -/
def mapInsert (m : List (String × String)) (k v : String) : List (String × String) :=
  match m with
  | [] => [(k, v)]
  | (k1, v1) :: rest => if k1 = k then (k, v) :: rest else (k1, v1) :: mapInsert rest k v

/-- HMGet: builds the result map over the requested fields in order, taking
val.value whenever the composite key is present — expiration is not consulted.
No mutation, no logging. -/
def RedisStore.HMGet (r : RedisStore) (key : String) (fields : List String) :
    RedisStore × List (String × String) :=
  (r, fields.foldl
    (fun result field =>
      match r.data (key ++ "." ++ field) with
      | some val => mapInsert result field val.value
      | none => result)
    [])

structure Command where
  Name : String
  Args : List String
  deriving DecidableEq, Repr

/-- A Go map iteration: the order in which `for k, v := range m` visits the
entries of a map, as a reordering of the association list. -/
def GoMapIter : Type := List (String × String) → List (String × String)

/-- A Go map iteration visits each entry exactly once, in some order. -/
def ValidIter (iter : GoMapIter) : Prop := ∀ l, List.Perm (iter l) l

def digitsToNat (ds : List Char) : Nat :=
  ds.foldl (fun n c => n * 10 + (c.toNat - 48)) 0

/-- Model of Go strconv.Atoi: an optional single sign followed by a nonempty
run of digits. (The 64-bit range error is not modelled; no claim here
involves out-of-range input.) -/
def goAtoi (s : String) : Option Int :=
  match s.data with
  | [] => none
  | c :: rest =>
    let neg : Bool := c = '-'
    let ds : List Char := if c = '-' ∨ c = '+' then rest else c :: rest
    if ds ≠ [] ∧ ds.all (fun d => d.isDigit) then
      some (if neg then -(digitsToNat ds : Int) else (digitsToNat ds : Int))
    else none

/-- The HMSET argument loop: for i := 1; i < len(Args); i += 2, assign
values[Args[i]] = Args[i+1]. When the field/value tail has odd length the
read of Args[i+1] is out of range: the Go code panics, modelled by `none`. -/
def buildPairs (m : List (String × String)) : List String → Option (List (String × String))
  | [] => some m
  | [_] => none
  | f :: v :: rest => buildPairs (mapInsert m f v) rest

/-- processCommand: the command engine switch. `none` models abnormal
termination of the process (the HMSET index-out-of-range panic, os.Exit on
EXIT); every other path returns the response string and the updated store. -/
def processCommand (iter : GoMapIter) (now : Int) (store : RedisStore) (cmd : Command) :
    Option (RedisStore × String) :=
  if cmd.Name = "GET" then
    if cmd.Args.length = 1 then
      let res := store.Get (cmd.Args.getD 0 "") now
      some (res.1, if res.2.2 then res.2.1 else "(nil)")
    else some (store, "")
  else if cmd.Name = "SET" then
    if 2 ≤ cmd.Args.length then
      some (store.Set (cmd.Args.getD 0 "") { value := cmd.Args.getD 1 "", expiration := none },
            "OK")
    else some (store, "")
  else if cmd.Name = "EXPIRE" then
    if 3 ≤ cmd.Args.length then
      match goAtoi (cmd.Args.getD 2 "") with
      | none => some (store, "ERR invalid expire time")
      | some seconds =>
        some (store.SetWithExpiration (cmd.Args.getD 0 "") (cmd.Args.getD 1 "") now seconds, "OK")
    else some (store, "")
  else if cmd.Name = "DEL" then
    if cmd.Args.length = 1 then
      some (store.Del (cmd.Args.getD 0 ""), "OK")
    else some (store, "")
  else if cmd.Name = "HMSET" then
    if 2 ≤ cmd.Args.length then
      match buildPairs [] (cmd.Args.drop 1) with
      | none => none
      | some values => some (store.HMSet (cmd.Args.getD 0 "") (iter values), "OK")
    else some (store, "")
  else if cmd.Name = "HMGET" then
    if 2 ≤ cmd.Args.length then
      let res := store.HMGet (cmd.Args.getD 0 "") (cmd.Args.drop 1)
      some (res.1,
        "[" ++ joinSpace ((iter res.2).foldl (fun acc kv => acc ++ [kv.1, kv.2]) []) ++ "]")
    else some (store, "")
  else if cmd.Name = "EXIT" then
    none
  else some (store, "")

/-- Run a sequence of commands through the engine, stopping on a panic. -/
def runCommands (iter : GoMapIter) (now : Int) : List Command → RedisStore → Option RedisStore
  | [], r => some r
  | c :: cs, r =>
    match processCommand iter now r c with
    | none => none
    | some (r1, _) => runCommands iter now cs r1

/-- The state of the redisstore.aof file as seen by loadAOF: missing,
failing to open, or readable content (the lines the scanner yields, plus
whether the scanner then reports an error). -/
inductive AOFFile where
  | missing : AOFFile
  | openFail : AOFFile
  | content : List String → Bool → AOFFile

/-- The loadAOF scan loop: each line is strings.Split on " "; lines with
fewer than two parts are skipped; the rest are handed to processCommand. -/
def replayLines (iter : GoMapIter) (now : Int) : List String → RedisStore → Option RedisStore
  | [], r => some r
  | line :: rest, r =>
    let parts := splitSpace line
    if parts.length < 2 then replayLines iter now rest r
    else
      match processCommand iter now r { Name := parts.getD 0 "", Args := parts.drop 1 } with
      | none => none
      | some (r1, _) => replayLines iter now rest r1

/-- loadAOF: disables the logging gate, then: missing file succeeds with the
store untouched; an open failure returns the error; otherwise the lines are
replayed through processCommand and the gate is re-enabled, returning the
scanner's error status. The Bool in the result is "returned a non-nil error". -/
def loadAOF (iter : GoMapIter) (now : Int) (file : AOFFile) (r : RedisStore) :
    Option (RedisStore × Bool) :=
  let r0 : RedisStore := { r with writeAOFEnabled := false }
  match file with
  | .missing => some (r0, false)
  | .openFail => some (r0, true)
  | .content lines scanFail =>
    match replayLines iter now lines r0 with
    | none => none
    | some r1 => some ({ r1 with writeAOFEnabled := true }, scanFail)

/-- NewRedisStore: empty maps; writeAOFEnabled is the Go zero value false. -/
def NewRedisStore : RedisStore :=
  { data := fun _ => none, listData := fun _ => none, writeAOFEnabled := false, aof := [] }

/-- The live store right after startup: NewRedisStore creates the AOF file,
so loadAOF finds it and re-enables the logging gate before serving begins. -/
def liveStore : RedisStore :=
  { NewRedisStore with writeAOFEnabled := true }

/-- Repeatedly ListPop a key, collecting the returned values until a pop
reports not-found. -/
def popSeq : RedisStore → String → Nat → List String
  | _, _, 0 => []
  | s, key, n + 1 =>
    let res := s.ListPop key
    if res.2.2 then res.2.1 :: popSeq res.1 key n else []

/-- A wire token: produced by whitespace tokenization, so it contains no
space and no newline. -/
def isToken (s : String) : Prop := ' ' ∉ s.data ∧ '\n' ∉ s.data

/-- A well-formed mutating command whose log records replay faithfully:
SET, DEL, or HMSET with complete field/value pairs, with token arguments. -/
def goodCmd (c : Command) : Prop :=
  (∀ a ∈ c.Args, isToken a) ∧
  ((c.Name = "SET" ∧ 2 ≤ c.Args.length) ∨
   (c.Name = "DEL" ∧ c.Args.length = 1) ∨
   (c.Name = "HMSET" ∧ 3 ≤ c.Args.length ∧ c.Args.length % 2 = 1))

instance (s : String) : Decidable (isToken s) := by
  unfold isToken
  infer_instance

instance (c : Command) : Decidable (goodCmd c) := by
  unfold goodCmd
  infer_instance

/-- Observable agreement of two engine results modulo Go map iteration
order: equal final state except that HMSET may log its per-field records in
a different order, and HMGET may format its response pairs in a different
order; panics agree. -/
def obsAgree (cmdName : String) (a b : Option (RedisStore × String)) : Prop :=
  match a, b with
  | some (s1, r1), some (s2, r2) =>
      s1.data = s2.data ∧ s1.listData = s2.listData ∧
      s1.writeAOFEnabled = s2.writeAOFEnabled ∧ List.Perm s1.aof s2.aof ∧
      (cmdName ≠ "HMGET" → r1 = r2) ∧ (cmdName ≠ "HMSET" → s1.aof = s2.aof)
  | none, none => True
  | _, _ => False

/-- The log record HMSet emits for one field of a hash. -/
def hmsetLine (key : String) (kv : String × String) : String :=
  logLine "HMSET" [key, kv.1, kv.2]

/-- A log line that the replay loop passes over without touching the store:
blank or otherwise under two space-separated parts, or a first part that is
not a recognized command name. -/
def skippedLine (line : String) : Prop :=
  (splitSpace line).length < 2 ∨
  (splitSpace line).getD 0 "" ∉
    (["GET", "SET", "EXPIRE", "DEL", "HMSET", "HMGET", "EXIT"] : List String)

/-- The keys of an association list are pairwise distinct (true of any list
of entries produced by ranging over a Go map). -/
def keysNodup (l : List (String × String)) : Prop := (l.map Prod.fst).Nodup

/-- Original run for the C1 counterexample: a single accepted EXPIRE at time 0. -/
def c1origRun : Option RedisStore :=
  runCommands (fun l => l) 0 [{ Name := "EXPIRE", Args := ["a", "b", "5"] }] liveStore

/-- Replay of the log produced by `c1origRun` into a fresh store. -/
def c1replayRun : Option RedisStore :=
  c1origRun.bind fun s1 =>
    (loadAOF (fun l => l) 0 (AOFFile.content s1.aof false) NewRedisStore).map Prod.fst

/-- Store for the C3 counterexample: two fields stored under hash "h". -/
def c3Store : RedisStore := liveStore.HMSet "h" [("f1", "v1"), ("f2", "v2")]

/-- Store for the C5 counterexample: a composite scalar entry "h.f" whose
expiration (time 0) has passed by time 1. -/
def c5Store : RedisStore :=
  { liveStore with data := dataUpd liveStore.data "h.f" (some { value := "v", expiration := some 0 }) }

/-- Store for the C7 witness: the list ["a", "b"] pushed at key "q". -/
def c7Store : RedisStore := (liveStore.ListPush "q" "a").ListPush "q" "b"

/-! ### Projection lemmas for the store operations -/

theorem writeAOF_data (r : RedisStore) (c : String) (a : List String) :
    (r.writeAOF c a).data = r.data := by
  unfold RedisStore.writeAOF; split <;> rfl

theorem writeAOF_listData (r : RedisStore) (c : String) (a : List String) :
    (r.writeAOF c a).listData = r.listData := by
  unfold RedisStore.writeAOF; split <;> rfl

theorem writeAOF_enabled (r : RedisStore) (c : String) (a : List String) :
    (r.writeAOF c a).writeAOFEnabled = r.writeAOFEnabled := by
  unfold RedisStore.writeAOF; split <;> rfl

theorem writeAOF_aof_on (r : RedisStore) (c : String) (a : List String)
    (h : r.writeAOFEnabled = true) : (r.writeAOF c a).aof = r.aof ++ [logLine c a] := by
  unfold RedisStore.writeAOF; rw [h]; rfl

theorem writeAOF_aof_off (r : RedisStore) (c : String) (a : List String)
    (h : r.writeAOFEnabled = false) : (r.writeAOF c a).aof = r.aof := by
  unfold RedisStore.writeAOF; rw [h]; rfl

theorem setData_data (r : RedisStore) (key : String) (v : Option StoredValue) :
    (r.setData key v).data = dataUpd r.data key v := rfl

theorem setData_listData (r : RedisStore) (key : String) (v : Option StoredValue) :
    (r.setData key v).listData = r.listData := rfl

theorem setData_enabled (r : RedisStore) (key : String) (v : Option StoredValue) :
    (r.setData key v).writeAOFEnabled = r.writeAOFEnabled := rfl

theorem setData_aof (r : RedisStore) (key : String) (v : Option StoredValue) :
    (r.setData key v).aof = r.aof := rfl

/-! ### strings.Split / strings.Join round-trip on space-free tokens -/

theorem splitChars_no_space : ∀ w : List Char, ' ' ∉ w → splitChars w = [w] := by
  intro w
  induction w with
  | nil => intro _; rfl
  | cons c rest ih =>
    intro h
    have hc : ¬ c = ' ' := fun e => h (e ▸ List.mem_cons_self c rest)
    have hrest : ' ' ∉ rest := fun hm => h (List.mem_cons_of_mem _ hm)
    unfold splitChars
    rw [if_neg hc, ih hrest]

theorem splitChars_sep : ∀ w rest : List Char, ' ' ∉ w →
    splitChars (w ++ ' ' :: rest) = w :: splitChars rest := by
  intro w
  induction w with
  | nil =>
    intro rest _
    show splitChars (' ' :: rest) = [] :: splitChars rest
    conv_lhs => rw [splitChars]
    rw [if_pos rfl]
  | cons c w ih =>
    intro rest h
    have hc : ¬ c = ' ' := fun e => h (e ▸ List.mem_cons_self c w)
    have hw : ' ' ∉ w := fun hm => h (List.mem_cons_of_mem _ hm)
    show splitChars (c :: (w ++ ' ' :: rest)) = (c :: w) :: splitChars rest
    conv_lhs => rw [splitChars]
    rw [if_neg hc, ih rest hw]

theorem splitChars_joinChars : ∀ ws : List (List Char), ws ≠ [] →
    (∀ w ∈ ws, ' ' ∉ w) → splitChars (joinChars ws) = ws := by
  intro ws
  induction ws with
  | nil => intro h _; exact absurd rfl h
  | cons w ws ih =>
    intro _ h
    cases ws with
    | nil => exact splitChars_no_space w (h w (List.mem_cons_self _ _))
    | cons x xs =>
      show splitChars (w ++ ' ' :: joinChars (x :: xs)) = w :: x :: xs
      rw [splitChars_sep _ _ (h w (List.mem_cons_self _ _)),
          ih (by simp) (fun a ha => h a (List.mem_cons_of_mem _ ha))]

theorem splitSpace_logLine (name : String) (args : List String) (hname : ' ' ∉ name.data)
    (hargs : args ≠ []) (htok : ∀ a ∈ args, ' ' ∉ a.data) :
    splitSpace (logLine name args) = name :: args := by
  unfold logLine splitSpace joinSpace
  have hdata : (name ++ " " ++ String.mk (joinChars (args.map String.data))).data
      = name.data ++ ' ' :: joinChars (args.map String.data) := by
    simp [String.data_append]
  rw [hdata, splitChars_sep _ _ hname,
      splitChars_joinChars (args.map String.data) (by simpa using hargs)
        (by intro w hw
            obtain ⟨a, ha, rfl⟩ := List.mem_map.mp hw
            exact htok a ha)]
  show String.mk name.data :: (args.map String.data).map String.mk = name :: args
  rw [List.map_map, show (String.mk ∘ String.data) = (id : String → String) from
    funext fun s => rfl, List.map_id]

/-! ### Reads return the store unchanged and depend only on the data map -/

theorem get_fst (s : RedisStore) (key : String) (now : Int) : (s.Get key now).1 = s := by
  unfold RedisStore.Get
  rcases s.data key with _ | ⟨v, _ | e⟩
  · rfl
  · rfl
  · show (if now > e then (s, "", false) else (s, v, true)).1 = s
    split <;> rfl

theorem hmget_fst (s : RedisStore) (key : String) (fields : List String) :
    (s.HMGet key fields).1 = s := rfl

theorem get_congr (s1 s2 : RedisStore) (h : s1.data = s2.data) (key : String) (now : Int) :
    (s1.Get key now).2 = (s2.Get key now).2 := by
  unfold RedisStore.Get
  rw [h]
  rcases s2.data key with _ | ⟨v, _ | e⟩
  · rfl
  · rfl
  · show (if now > e then (s1, "", false) else (s1, v, true)).2 =
        (if now > e then (s2, "", false) else (s2, v, true)).2
    split <;> rfl

theorem hmget_congr (s1 s2 : RedisStore) (h : s1.data = s2.data) (key : String)
    (fields : List String) : (s1.HMGet key fields).2 = (s2.HMGet key fields).2 := by
  simp only [RedisStore.HMGet, h]

theorem popSeq_congr : ∀ (n : Nat) (s1 s2 : RedisStore) (key : String),
    s1.listData = s2.listData → popSeq s1 key n = popSeq s2 key n := by
  intro n
  induction n with
  | zero => intro s1 s2 key _; rfl
  | succ n ih =>
    intro s1 s2 key h
    unfold popSeq RedisStore.ListPop
    simp only [h]
    cases (s2.listData key).getD [] with
    | nil => rfl
    | cons v rest =>
      simp only
      exact congrArg (v :: ·) (ih _ _ key rfl)

/-! ### HMSet: unfolding and invariants -/

theorem hmset_nil (s : RedisStore) (key : String) : s.HMSet key [] = s := rfl

theorem hmset_cons (s : RedisStore) (key : String) (kv : String × String)
    (l : List (String × String)) :
    s.HMSet key (kv :: l) =
      ((s.setData (key ++ "." ++ kv.1) (some { value := kv.2, expiration := none })).writeAOF
        "HMSET" [key, kv.1, kv.2]).HMSet key l := rfl

theorem hmset_enabled (key : String) : ∀ (l : List (String × String)) (s : RedisStore),
    (s.HMSet key l).writeAOFEnabled = s.writeAOFEnabled := by
  intro l
  induction l with
  | nil => intro s; rfl
  | cons kv l ih =>
    intro s
    rw [hmset_cons, ih, writeAOF_enabled, setData_enabled]

theorem hmset_listData (key : String) : ∀ (l : List (String × String)) (s : RedisStore),
    (s.HMSet key l).listData = s.listData := by
  intro l
  induction l with
  | nil => intro s; rfl
  | cons kv l ih =>
    intro s
    rw [hmset_cons, ih, writeAOF_listData, setData_listData]

theorem hmset_aof_on (key : String) : ∀ (l : List (String × String)) (s : RedisStore),
    s.writeAOFEnabled = true →
    (s.HMSet key l).aof = s.aof ++ l.map (hmsetLine key) := by
  intro l
  induction l with
  | nil => intro s _; simp [hmset_nil]
  | cons kv l ih =>
    intro s hs
    rw [hmset_cons, ih _ (by rw [writeAOF_enabled, setData_enabled]; exact hs),
        writeAOF_aof_on _ _ _ (by rw [setData_enabled]; exact hs), setData_aof]
    simp [hmsetLine]

theorem hmset_aof_off (key : String) : ∀ (l : List (String × String)) (s : RedisStore),
    s.writeAOFEnabled = false → (s.HMSet key l).aof = s.aof := by
  intro l
  induction l with
  | nil => intro s _; rfl
  | cons kv l ih =>
    intro s hs
    rw [hmset_cons, ih _ (by rw [writeAOF_enabled, setData_enabled]; exact hs),
        writeAOF_aof_off _ _ _ (by rw [setData_enabled]; exact hs), setData_aof]

theorem hmset_data_congr (key : String) : ∀ (l : List (String × String)) (r s : RedisStore),
    r.data = s.data → (r.HMSet key l).data = (s.HMSet key l).data := by
  intro l
  induction l with
  | nil => intro r s h; exact h
  | cons kv l ih =>
    intro r s h
    rw [hmset_cons, hmset_cons]
    apply ih
    rw [writeAOF_data, writeAOF_data, setData_data, setData_data, h]

/-! ### mapInsert and buildPairs -/

theorem mapInsert_mem (k v : String) : ∀ (m : List (String × String)) (p : String × String),
    p ∈ mapInsert m k v → p = (k, v) ∨ p ∈ m := by
  intro m
  induction m with
  | nil =>
    intro p hp
    rcases List.mem_singleton.mp hp with h
    exact Or.inl h
  | cons kv rest ih =>
    intro p hp
    unfold mapInsert at hp
    by_cases hk : kv.1 = k
    · rw [if_pos hk] at hp
      rcases List.mem_cons.mp hp with h | h
      · exact Or.inl h
      · exact Or.inr (List.mem_cons_of_mem _ h)
    · rw [if_neg hk] at hp
      rcases List.mem_cons.mp hp with h | h
      · exact Or.inr (h ▸ List.mem_cons_self _ _)
      · rcases ih p h with h1 | h1
        · exact Or.inl h1
        · exact Or.inr (List.mem_cons_of_mem _ h1)

theorem mapInsert_keys (k v : String) : ∀ (m : List (String × String)) (x : String),
    x ∈ (mapInsert m k v).map Prod.fst → x = k ∨ x ∈ m.map Prod.fst := by
  intro m x hx
  obtain ⟨p, hp, rfl⟩ := List.mem_map.mp hx
  rcases mapInsert_mem k v m p hp with h | h
  · exact Or.inl (by rw [h])
  · exact Or.inr (List.mem_map.mpr ⟨p, h, rfl⟩)

theorem mapInsert_nodup (k v : String) : ∀ (m : List (String × String)),
    keysNodup m → keysNodup (mapInsert m k v) := by
  intro m
  induction m with
  | nil => intro _; simp [mapInsert, keysNodup]
  | cons kv rest ih =>
    intro h
    unfold keysNodup at h
    rw [List.map_cons, List.nodup_cons] at h
    unfold mapInsert
    by_cases hk : kv.1 = k
    · rw [if_pos hk]
      unfold keysNodup
      rw [List.map_cons, List.nodup_cons]
      exact ⟨by rw [← hk]; exact h.1, h.2⟩
    · rw [if_neg hk]
      unfold keysNodup
      rw [List.map_cons, List.nodup_cons]
      refine ⟨fun hmem => ?_, ih h.2⟩
      rcases mapInsert_keys k v rest kv.1 hmem with h1 | h1
      · exact hk h1
      · exact h.1 h1

/-! ### Set / Del / SetWithExpiration projections -/

theorem set_data (s : RedisStore) (key : String) (v : StoredValue) :
    (s.Set key v).data = dataUpd s.data key (some v) := by
  rw [RedisStore.Set, writeAOF_data, setData_data]

theorem set_listData (s : RedisStore) (key : String) (v : StoredValue) :
    (s.Set key v).listData = s.listData := by
  rw [RedisStore.Set, writeAOF_listData, setData_listData]

theorem set_enabled (s : RedisStore) (key : String) (v : StoredValue) :
    (s.Set key v).writeAOFEnabled = s.writeAOFEnabled := by
  rw [RedisStore.Set, writeAOF_enabled, setData_enabled]

theorem set_aof_on (s : RedisStore) (key : String) (v : StoredValue)
    (h : s.writeAOFEnabled = true) :
    (s.Set key v).aof = s.aof ++ [logLine "SET" [key, v.value]] := by
  rw [RedisStore.Set, writeAOF_aof_on _ _ _ (by rw [setData_enabled]; exact h), setData_aof]

theorem set_aof_off (s : RedisStore) (key : String) (v : StoredValue)
    (h : s.writeAOFEnabled = false) : (s.Set key v).aof = s.aof := by
  rw [RedisStore.Set, writeAOF_aof_off _ _ _ (by rw [setData_enabled]; exact h), setData_aof]

theorem del_data (s : RedisStore) (key : String) :
    (s.Del key).data = dataUpd s.data key none := by
  rw [RedisStore.Del, writeAOF_data, setData_data]

theorem del_listData (s : RedisStore) (key : String) : (s.Del key).listData = s.listData := by
  rw [RedisStore.Del, writeAOF_listData, setData_listData]

theorem del_enabled (s : RedisStore) (key : String) :
    (s.Del key).writeAOFEnabled = s.writeAOFEnabled := by
  rw [RedisStore.Del, writeAOF_enabled, setData_enabled]

theorem del_aof_on (s : RedisStore) (key : String) (h : s.writeAOFEnabled = true) :
    (s.Del key).aof = s.aof ++ [logLine "DEL" [key]] := by
  rw [RedisStore.Del, writeAOF_aof_on _ _ _ (by rw [setData_enabled]; exact h), setData_aof]

theorem del_aof_off (s : RedisStore) (key : String) (h : s.writeAOFEnabled = false) :
    (s.Del key).aof = s.aof := by
  rw [RedisStore.Del, writeAOF_aof_off _ _ _ (by rw [setData_enabled]; exact h), setData_aof]

theorem swe_data (s : RedisStore) (key value : String) (now seconds : Int) :
    (s.SetWithExpiration key value now seconds).data =
      dataUpd s.data key (some { value := value, expiration := some (now + seconds) }) := by
  rw [RedisStore.SetWithExpiration, writeAOF_data, setData_data]

theorem swe_listData (s : RedisStore) (key value : String) (now seconds : Int) :
    (s.SetWithExpiration key value now seconds).listData = s.listData := by
  rw [RedisStore.SetWithExpiration, writeAOF_listData, setData_listData]

theorem swe_enabled (s : RedisStore) (key value : String) (now seconds : Int) :
    (s.SetWithExpiration key value now seconds).writeAOFEnabled = s.writeAOFEnabled := by
  rw [RedisStore.SetWithExpiration, writeAOF_enabled, setData_enabled]

theorem swe_aof_off (s : RedisStore) (key value : String) (now seconds : Int)
    (h : s.writeAOFEnabled = false) :
    (s.SetWithExpiration key value now seconds).aof = s.aof := by
  rw [RedisStore.SetWithExpiration,
      writeAOF_aof_off _ _ _ (by rw [setData_enabled]; exact h), setData_aof]

/-! ### Evaluating the engine on each branch shape -/

theorem processCommand_set_eq (iter : GoMapIter) (now : Int) (s : RedisStore) (a b : String)
    (rest : List String) :
    processCommand iter now s { Name := "SET", Args := a :: b :: rest } =
      some (s.Set a { value := b, expiration := none }, "OK") := by
  simp [processCommand]

theorem processCommand_del_eq (iter : GoMapIter) (now : Int) (s : RedisStore) (a : String) :
    processCommand iter now s { Name := "DEL", Args := [a] } = some (s.Del a, "OK") := by
  simp [processCommand]

theorem processCommand_hmset_eq (iter : GoMapIter) (now : Int) (s : RedisStore) (key x : String)
    (t : List String) (values : List (String × String))
    (h : buildPairs [] (x :: t) = some values) :
    processCommand iter now s { Name := "HMSET", Args := key :: x :: t } =
      some (s.HMSet key (iter values), "OK") := by
  simp [processCommand, h]

theorem processCommand_hmset_panic (iter : GoMapIter) (now : Int) (s : RedisStore)
    (key x : String) (t : List String) (h : buildPairs [] (x :: t) = none) :
    processCommand iter now s { Name := "HMSET", Args := key :: x :: t } = none := by
  simp [processCommand, h]

/-! ### buildPairs -/

theorem buildPairs_total : ∀ (m : List (String × String)) (l : List String),
    l.length % 2 = 0 → ∃ vs, buildPairs m l = some vs := by
  intro m l
  induction m, l using buildPairs.induct with
  | case1 m => intro _; exact ⟨m, rfl⟩
  | case2 m x => intro h; simp at h
  | case3 m f v rest ih =>
    intro h
    apply ih
    simp only [List.length_cons] at h
    omega

theorem buildPairs_mem (P : String → Prop) : ∀ (m : List (String × String)) (l : List String)
    (vs : List (String × String)), (∀ p ∈ m, P p.1 ∧ P p.2) → (∀ a ∈ l, P a) →
    buildPairs m l = some vs → ∀ p ∈ vs, P p.1 ∧ P p.2 := by
  intro m l
  induction m, l using buildPairs.induct with
  | case1 m =>
    intro vs hm _ heq
    simp only [buildPairs] at heq
    exact Option.some.inj heq ▸ hm
  | case2 m x =>
    intro vs _ _ heq
    simp [buildPairs] at heq
  | case3 m f v rest ih =>
    intro vs hm hl heq
    simp only [buildPairs] at heq
    refine ih vs ?_ (fun a ha => hl a (List.mem_cons_of_mem _ (List.mem_cons_of_mem _ ha))) heq
    intro p hp
    rcases mapInsert_mem f v m p hp with rfl | hpm
    · exact ⟨hl f (List.mem_cons_self _ _),
        hl v (List.mem_cons_of_mem _ (List.mem_cons_self _ _))⟩
    · exact hm p hpm

theorem buildPairs_nodup : ∀ (m : List (String × String)) (l : List String)
    (vs : List (String × String)), keysNodup m → buildPairs m l = some vs → keysNodup vs := by
  intro m l
  induction m, l using buildPairs.induct with
  | case1 m =>
    intro vs hm heq
    simp only [buildPairs] at heq
    exact Option.some.inj heq ▸ hm
  | case2 m x =>
    intro vs _ heq
    simp [buildPairs] at heq
  | case3 m f v rest ih =>
    intro vs hm heq
    simp only [buildPairs] at heq
    exact ih vs (mapInsert_nodup f v m hm) heq

/-! ### The engine with the logging gate off never appends -/

theorem processCommand_unknown (iter : GoMapIter) (now : Int) (s : RedisStore) (cmd : Command)
    (h : cmd.Name ∉ (["GET", "SET", "EXPIRE", "DEL", "HMSET", "HMGET", "EXIT"] : List String)) :
    processCommand iter now s cmd = some (s, "") := by
  simp only [List.mem_cons, List.not_mem_nil, or_false, not_or] at h
  obtain ⟨h1, h2, h3, h4, h5, h6, h7⟩ := h
  unfold processCommand
  rw [if_neg h1, if_neg h2, if_neg h3, if_neg h4, if_neg h5, if_neg h6, if_neg h7]

theorem processCommand_off (iter : GoMapIter) (now : Int) (s : RedisStore) (cmd : Command)
    (s1 : RedisStore) (resp : String) (hoff : s.writeAOFEnabled = false)
    (h : processCommand iter now s cmd = some (s1, resp)) :
    s1.aof = s.aof ∧ s1.writeAOFEnabled = false := by
  unfold processCommand at h
  split_ifs at h
  case pos =>
    -- GET with one argument
    simp only [Option.some.injEq, Prod.mk.injEq] at h
    obtain ⟨h1, -⟩ := h
    rw [← h1, get_fst]
    exact ⟨rfl, hoff⟩
  case neg =>
    -- the final fall-through: unknown name
    simp only [Option.some.injEq, Prod.mk.injEq] at h
    obtain ⟨h1, -⟩ := h
    rw [← h1]
    exact ⟨rfl, hoff⟩
  all_goals
    first
    | -- EXIT: the engine does not return
      exact Option.noConfusion h
    | -- branches that return (store, "") or an error string without mutating
      (simp only [Option.some.injEq, Prod.mk.injEq] at h
       obtain ⟨h1, -⟩ := h
       rw [← h1]
       first
       | exact ⟨rfl, hoff⟩
       | exact ⟨set_aof_off _ _ _ hoff, by rw [set_enabled]; exact hoff⟩
       | exact ⟨del_aof_off _ _ hoff, by rw [del_enabled]; exact hoff⟩)
    | -- EXPIRE: split on goAtoi
      (rcases hg : goAtoi (cmd.Args.getD 2 "") with _ | seconds
       · simp only [hg, Option.some.injEq, Prod.mk.injEq] at h
         obtain ⟨h1, -⟩ := h
         rw [← h1]
         exact ⟨rfl, hoff⟩
       · simp only [hg, Option.some.injEq, Prod.mk.injEq] at h
         obtain ⟨h1, -⟩ := h
         rw [← h1]
         exact ⟨swe_aof_off _ _ _ _ _ hoff, by rw [swe_enabled]; exact hoff⟩)
    | -- HMSET: split on buildPairs
      (rcases hb : buildPairs [] (cmd.Args.drop 1) with _ | values
       · rw [hb] at h
         exact Option.noConfusion h
       · simp only [hb, Option.some.injEq, Prod.mk.injEq] at h
         obtain ⟨h1, -⟩ := h
         rw [← h1]
         exact ⟨hmset_aof_off _ _ _ hoff, by rw [hmset_enabled]; exact hoff⟩)

/-! ### Replay loop lemmas -/

theorem replayLines_append (iter : GoMapIter) (now : Int) : ∀ (l1 l2 : List String)
    (r : RedisStore), replayLines iter now (l1 ++ l2) r =
      (replayLines iter now l1 r).bind (fun r1 => replayLines iter now l2 r1) := by
  intro l1
  induction l1 with
  | nil => intro l2 r; rfl
  | cons line rest ih =>
    intro l2 r
    simp only [List.cons_append, replayLines]
    by_cases hp : (splitSpace line).length < 2
    · rw [if_pos hp, if_pos hp]
      exact ih l2 r
    · rw [if_neg hp, if_neg hp]
      rcases processCommand iter now r
          { Name := (splitSpace line).getD 0 "", Args := (splitSpace line).drop 1 } with
        _ | ⟨r1, resp⟩
      · rfl
      · exact ih l2 r1

theorem replayLines_off (iter : GoMapIter) (now : Int) : ∀ (lines : List String)
    (r r1 : RedisStore), r.writeAOFEnabled = false → replayLines iter now lines r = some r1 →
    r1.aof = r.aof ∧ r1.writeAOFEnabled = false := by
  intro lines
  induction lines with
  | nil =>
    intro r r1 hoff h
    cases Option.some.inj h
    exact ⟨rfl, hoff⟩
  | cons line rest ih =>
    intro r r1 hoff h
    simp only [replayLines] at h
    by_cases hp : (splitSpace line).length < 2
    · rw [if_pos hp] at h
      exact ih r r1 hoff h
    · rw [if_neg hp] at h
      rcases hpc : processCommand iter now r
          { Name := (splitSpace line).getD 0 "", Args := (splitSpace line).drop 1 } with
        _ | ⟨r2, resp⟩
      · rw [hpc] at h
        exact Option.noConfusion h
      · rw [hpc] at h
        obtain ⟨ha, he⟩ := processCommand_off _ _ _ _ _ _ hoff hpc
        obtain ⟨ha2, he2⟩ := ih r2 r1 he h
        exact ⟨ha2.trans ha, he2⟩

theorem replayLines_skip_one (iter : GoMapIter) (now : Int) (line : String)
    (rest : List String) (r : RedisStore) (h : skippedLine line) :
    replayLines iter now (line :: rest) r = replayLines iter now rest r := by
  simp only [replayLines]
  rcases h with hp | hname
  · rw [if_pos hp]
  · by_cases hp : (splitSpace line).length < 2
    · rw [if_pos hp]
    · rw [if_neg hp,
          processCommand_unknown iter now r
            { Name := (splitSpace line).getD 0 "", Args := (splitSpace line).drop 1 } hname]

theorem replayLines_skipped (iter : GoMapIter) (now : Int) : ∀ (lines : List String)
    (r : RedisStore), (∀ line ∈ lines, skippedLine line) →
    replayLines iter now lines r = some r := by
  intro lines
  induction lines with
  | nil => intro r _; rfl
  | cons line rest ih =>
    intro r h
    rw [replayLines_skip_one iter now line rest r (h line (List.mem_cons_self _ _))]
    exact ih r (fun l hl => h l (List.mem_cons_of_mem _ hl))

/-! ### Replaying the log records that the mutating commands emit -/

theorem replay_set_line (iter : GoMapIter) (now : Int) (a b : String) (r : RedisStore)
    (ha : ' ' ∉ a.data) (hb : ' ' ∉ b.data) (rest : List String) :
    replayLines iter now (logLine "SET" [a, b] :: rest) r =
      replayLines iter now rest (r.Set a { value := b, expiration := none }) := by
  have hsplit : splitSpace (logLine "SET" [a, b]) = ["SET", a, b] :=
    splitSpace_logLine "SET" [a, b] (by decide) (by simp)
      (by intro x hx
          rcases List.mem_cons.mp hx with rfl | hx
          · exact ha
          · rcases List.mem_cons.mp hx with rfl | hx
            · exact hb
            · exact absurd hx (List.not_mem_nil x))
  simp only [replayLines, hsplit, List.getD_cons_zero, List.drop_succ_cons, List.drop_zero]
  rw [if_neg (by simp), processCommand_set_eq]

theorem replay_del_line (iter : GoMapIter) (now : Int) (a : String) (r : RedisStore)
    (ha : ' ' ∉ a.data) (rest : List String) :
    replayLines iter now (logLine "DEL" [a] :: rest) r =
      replayLines iter now rest (r.Del a) := by
  have hsplit : splitSpace (logLine "DEL" [a]) = ["DEL", a] :=
    splitSpace_logLine "DEL" [a] (by decide) (by simp)
      (by intro x hx
          rcases List.mem_cons.mp hx with rfl | hx
          · exact ha
          · exact absurd hx (List.not_mem_nil x))
  simp only [replayLines, hsplit, List.getD_cons_zero, List.drop_succ_cons, List.drop_zero]
  rw [if_neg (by simp), processCommand_del_eq]

theorem replay_hmset_line (iter : GoMapIter) (hiter : ValidIter iter) (now : Int)
    (key : String) (kv : String × String) (r : RedisStore) (hkey : ' ' ∉ key.data)
    (hf : ' ' ∉ kv.1.data) (hv : ' ' ∉ kv.2.data) (rest : List String) :
    replayLines iter now (hmsetLine key kv :: rest) r =
      replayLines iter now rest (r.HMSet key [kv]) := by
  have hsplit : splitSpace (hmsetLine key kv) = ["HMSET", key, kv.1, kv.2] :=
    splitSpace_logLine "HMSET" [key, kv.1, kv.2] (by decide) (by simp)
      (by intro x hx
          rcases List.mem_cons.mp hx with rfl | hx
          · exact hkey
          · rcases List.mem_cons.mp hx with rfl | hx
            · exact hf
            · rcases List.mem_cons.mp hx with rfl | hx
              · exact hv
              · exact absurd hx (List.not_mem_nil x))
  have hbp : buildPairs [] [kv.1, kv.2] = some [(kv.1, kv.2)] := rfl
  simp only [replayLines, hsplit, List.getD_cons_zero, List.drop_succ_cons, List.drop_zero]
  rw [if_neg (by simp), processCommand_hmset_eq iter now r key kv.1 [kv.2] [(kv.1, kv.2)] hbp,
      List.perm_singleton.mp (hiter [(kv.1, kv.2)]), Prod.mk.eta]

theorem replay_hmset_lines (iter : GoMapIter) (hiter : ValidIter iter) (now : Int)
    (key : String) (hkey : ' ' ∉ key.data) : ∀ (pairs : List (String × String))
    (r : RedisStore) (rest : List String),
    (∀ p ∈ pairs, ' ' ∉ p.1.data ∧ ' ' ∉ p.2.data) →
    replayLines iter now (pairs.map (hmsetLine key) ++ rest) r =
      replayLines iter now rest (r.HMSet key pairs) := by
  intro pairs
  induction pairs with
  | nil => intro r rest _; rw [List.map_nil, List.nil_append, hmset_nil]
  | cons kv ps ih =>
    intro r rest h
    have hkv := h kv (List.mem_cons_self _ _)
    rw [List.map_cons, List.cons_append,
        replay_hmset_line iter hiter now key kv r hkey hkv.1 hkv.2,
        ih _ _ (fun p hp => h p (List.mem_cons_of_mem _ hp))]
    rfl

/-! ### The live-run versus replay simulation for SET, DEL and HMSET -/

theorem c1_sim (iter : GoMapIter) (hiter : ValidIter iter) (now rnow : Int) :
    ∀ (cmds : List Command), (∀ c ∈ cmds, goodCmd c) →
    ∀ (s r : RedisStore), s.writeAOFEnabled = true → r.writeAOFEnabled = false →
      r.data = s.data →
      ∃ s1 L, runCommands iter now cmds s = some s1 ∧ s1.aof = s.aof ++ L ∧
        s1.writeAOFEnabled = true ∧ s1.listData = s.listData ∧
        ∃ r1, replayLines iter rnow L r = some r1 ∧ r1.data = s1.data ∧
          r1.listData = r.listData ∧ r1.aof = r.aof ∧ r1.writeAOFEnabled = false := by
  intro cmds
  induction cmds with
  | nil =>
    intro _ s r hs hr hdata
    exact ⟨s, [], rfl, (List.append_nil s.aof).symm, hs, rfl,
      r, rfl, hdata, rfl, rfl, hr⟩
  | cons c cs ih =>
    intro hg s r hs hr hdata
    obtain ⟨htok, hshape⟩ := hg c (List.mem_cons_self _ _)
    have hcs := fun x hx => hg x (List.mem_cons_of_mem _ hx)
    obtain ⟨name, args⟩ := c
    rcases hshape with ⟨hname, hlen⟩ | ⟨hname, hlen⟩ | ⟨hname, hlen, hodd⟩ <;>
      simp only at hname hlen htok <;> subst hname
    · -- SET
      rcases args with _ | ⟨a, _ | ⟨b, rest⟩⟩
      · simp at hlen
      · simp at hlen
      obtain ⟨ha, -⟩ := htok a (List.mem_cons_self _ _)
      obtain ⟨hb, -⟩ := htok b (List.mem_cons_of_mem _ (List.mem_cons_self _ _))
      have hset : s.writeAOFEnabled = true := hs
      obtain ⟨s1, L, hrun, haof, hen, hld, r1, hrep, hd1, hld1, ha1, he1⟩ :=
        ih hcs (s.Set a { value := b, expiration := none })
          (r.Set a { value := b, expiration := none })
          (by rw [set_enabled]; exact hs) (by rw [set_enabled]; exact hr)
          (by rw [set_data, set_data, hdata])
      refine ⟨s1, logLine "SET" [a, b] :: L, ?_, ?_, hen, by rw [hld, set_listData], r1,
        ?_, hd1, by rw [hld1, set_listData], by rw [ha1, set_aof_off _ _ _ hr], he1⟩
      · simp only [runCommands, processCommand_set_eq]
        exact hrun
      · rw [haof, set_aof_on _ _ _ hs, List.append_assoc, List.singleton_append]
      · rw [replay_set_line iter rnow a b r ha hb L]
        exact hrep
    · -- DEL
      rcases args with _ | ⟨a, _ | ⟨b, rest⟩⟩
      · simp at hlen
      · obtain ⟨ha, -⟩ := htok a (List.mem_cons_self _ _)
        obtain ⟨s1, L, hrun, haof, hen, hld, r1, hrep, hd1, hld1, ha1, he1⟩ :=
          ih hcs (s.Del a) (r.Del a)
            (by rw [del_enabled]; exact hs) (by rw [del_enabled]; exact hr)
            (by rw [del_data, del_data, hdata])
        refine ⟨s1, logLine "DEL" [a] :: L, ?_, ?_, hen, by rw [hld, del_listData], r1,
          ?_, hd1, by rw [hld1, del_listData], by rw [ha1, del_aof_off _ _ hr], he1⟩
        · simp only [runCommands, processCommand_del_eq]
          exact hrun
        · rw [haof, del_aof_on _ _ hs, List.append_assoc, List.singleton_append]
        · rw [replay_del_line iter rnow a r ha L]
          exact hrep
      · simp at hlen
    · -- HMSET
      rcases args with _ | ⟨key, _ | ⟨x, t⟩⟩
      · simp at hlen
      · simp at hlen
      obtain ⟨hkey, -⟩ := htok key (List.mem_cons_self _ _)
      have heven : (x :: t).length % 2 = 0 := by
        simp only [List.length_cons] at hodd ⊢
        omega
      obtain ⟨values, hbp⟩ := buildPairs_total [] (x :: t) heven
      have hvtok : ∀ p ∈ iter values, ' ' ∉ p.1.data ∧ ' ' ∉ p.2.data := by
        intro p hp
        have hp2 : p ∈ values := ((hiter values).mem_iff).mp hp
        have := buildPairs_mem (fun a => ' ' ∉ a.data) [] (x :: t) values
          (by intro q hq; exact absurd hq (List.not_mem_nil q))
          (by intro a ha; exact (htok a (List.mem_cons_of_mem _ ha)).1) hbp
        exact this p hp2
      obtain ⟨s1, L, hrun, haof, hen, hld, r1, hrep, hd1, hld1, ha1, he1⟩ :=
        ih hcs (s.HMSet key (iter values)) (r.HMSet key (iter values))
          (by rw [hmset_enabled]; exact hs) (by rw [hmset_enabled]; exact hr)
          (hmset_data_congr key (iter values) r s hdata)
      refine ⟨s1, (iter values).map (hmsetLine key) ++ L, ?_, ?_, hen,
        by rw [hld, hmset_listData], r1, ?_, hd1, by rw [hld1, hmset_listData],
        by rw [ha1, hmset_aof_off _ _ _ hr], he1⟩
      · simp only [runCommands, processCommand_hmset_eq iter now s key x t values hbp]
        exact hrun
      · rw [haof, hmset_aof_on _ _ _ hs, List.append_assoc]
      · rw [replay_hmset_lines iter hiter rnow key hkey (iter values) r L hvtok]
        exact hrep

/-! ### HMSet's final data map does not depend on the map iteration order -/

theorem compKey_inj (key a b : String) (h : key ++ "." ++ a = key ++ "." ++ b) : a = b := by
  have hd : (key ++ "." ++ a).data = (key ++ "." ++ b).data := congrArg String.data h
  simp only [String.data_append] at hd
  exact String.ext (List.append_cancel_left hd)

theorem dataUpd_comm (m : String → Option StoredValue) (k1 k2 : String)
    (v1 v2 : Option StoredValue) (h : k1 ≠ k2) :
    dataUpd (dataUpd m k1 v1) k2 v2 = dataUpd (dataUpd m k2 v2) k1 v1 := by
  funext k
  unfold dataUpd
  by_cases h1 : k = k2 <;> by_cases h2 : k = k1
  · exact absurd (h2.symm.trans h1) h
  · have hne : ¬ (k2 = k1) := fun he => h he.symm
    simp [h1, h2, hne]
  · simp [h1, h2, h]
  · simp [h1, h2]

theorem hmset_data_perm (key : String) : ∀ (l1 l2 : List (String × String)),
    List.Perm l1 l2 → keysNodup l1 → ∀ s : RedisStore,
    (s.HMSet key l1).data = (s.HMSet key l2).data := by
  intro l1 l2 hp
  induction hp with
  | nil => intro _ s; rfl
  | cons x htail ih =>
    intro hn s
    rw [hmset_cons, hmset_cons]
    refine ih ?_ _
    unfold keysNodup at hn ⊢
    rw [List.map_cons, List.nodup_cons] at hn
    exact hn.2
  | swap x y l =>
    intro hn s
    have hne : y.1 ≠ x.1 := by
      unfold keysNodup at hn
      rw [List.map_cons, List.nodup_cons] at hn
      intro he
      exact hn.1 (he ▸ List.mem_cons_self _ _)
    rw [hmset_cons, hmset_cons, hmset_cons, hmset_cons]
    apply hmset_data_congr
    rw [writeAOF_data, setData_data, writeAOF_data, setData_data,
        writeAOF_data, setData_data, writeAOF_data, setData_data]
    exact dataUpd_comm s.data _ _ _ _
      (fun he => hne (compKey_inj key y.1 x.1 he))
  | trans h12 h23 ih12 ih23 =>
    intro hn s
    rw [ih12 hn s, ih23 (((h12.map Prod.fst).nodup_iff).mp hn) s]

theorem obsAgree_refl (n : String) (x : Option (RedisStore × String)) : obsAgree n x x := by
  rcases x with _ | ⟨s, r⟩
  · exact trivial
  · exact ⟨rfl, rfl, rfl, List.Perm.refl _, fun _ => rfl, fun _ => rfl⟩

/-- C3 (amended): the engine is deterministic modulo Go map iteration order:
for any two valid iteration orders, the same command on the same store
yields the same data map, list map and gate, the same log as a multiset,
the same response except for HMGET's pair formatting order, and an
identical log except for the order of HMSET's per-field records. -/
theorem c3_amended (iter1 iter2 : GoMapIter) (h1 : ValidIter iter1)
    (h2 : ValidIter iter2) (now : Int) (s : RedisStore) (cmd : Command) :
    obsAgree cmd.Name (processCommand iter1 now s cmd) (processCommand iter2 now s cmd) := by
  unfold processCommand
  by_cases hget : cmd.Name = "GET"
  · rw [if_pos hget, if_pos hget]; exact obsAgree_refl _ _
  rw [if_neg hget, if_neg hget]
  by_cases hset : cmd.Name = "SET"
  · rw [if_pos hset, if_pos hset]; exact obsAgree_refl _ _
  rw [if_neg hset, if_neg hset]
  by_cases hexp : cmd.Name = "EXPIRE"
  · rw [if_pos hexp, if_pos hexp]; exact obsAgree_refl _ _
  rw [if_neg hexp, if_neg hexp]
  by_cases hdel : cmd.Name = "DEL"
  · rw [if_pos hdel, if_pos hdel]; exact obsAgree_refl _ _
  rw [if_neg hdel, if_neg hdel]
  by_cases hhms : cmd.Name = "HMSET"
  · rw [if_pos hhms, if_pos hhms]
    by_cases hlen : 2 ≤ cmd.Args.length
    · rw [if_pos hlen, if_pos hlen]
      rcases hbp : buildPairs [] (cmd.Args.drop 1) with _ | values
      · exact obsAgree_refl _ _
      · have hperm : List.Perm (iter1 values) (iter2 values) :=
          (h1 values).trans (h2 values).symm
        have hnd : keysNodup (iter1 values) :=
          ((h1 values).map Prod.fst).nodup_iff.mpr
            (buildPairs_nodup [] (cmd.Args.drop 1) values (by simp [keysNodup]) hbp)
        refine ⟨hmset_data_perm _ _ _ hperm hnd s, ?_, ?_, ?_, fun _ => rfl,
          fun hne => absurd hhms hne⟩
        · rw [hmset_listData, hmset_listData]
        · rw [hmset_enabled, hmset_enabled]
        · cases hb : s.writeAOFEnabled
          · rw [hmset_aof_off _ _ _ hb, hmset_aof_off _ _ _ hb]
          · rw [hmset_aof_on _ _ _ hb, hmset_aof_on _ _ _ hb]
            exact List.Perm.append_left _ (List.Perm.map _ hperm)
    · rw [if_neg hlen, if_neg hlen]
      exact obsAgree_refl _ _
  rw [if_neg hhms, if_neg hhms]
  by_cases hhmg : cmd.Name = "HMGET"
  · rw [if_pos hhmg, if_pos hhmg]
    by_cases hlen : 2 ≤ cmd.Args.length
    · rw [if_pos hlen, if_pos hlen]
      exact ⟨rfl, rfl, rfl, List.Perm.refl _, fun hne => absurd hhmg hne, fun _ => rfl⟩
    · rw [if_neg hlen, if_neg hlen]
      exact obsAgree_refl _ _
  rw [if_neg hhmg, if_neg hhmg]
  by_cases hexit : cmd.Name = "EXIT"
  · rw [if_pos hexit]
    exact trivial
  · rw [if_neg hexit]
    exact obsAgree_refl _ _

theorem dataUpd_same (m : String → Option StoredValue) (key : String) (v : Option StoredValue) :
    dataUpd m key v key = v := by
  unfold dataUpd
  rw [if_pos rfl]

theorem popSeq_of_list : ∀ (l : List String) (s : RedisStore) (key : String),
    s.listData key = some l → popSeq s key l.length = l := by
  intro l
  induction l with
  | nil => intro s key _; rfl
  | cons x xs ih =>
    intro s key h
    have hpop : s.ListPop key =
        ({ s with listData := fun k => if k = key then some xs else s.listData k }, x, true) := by
      unfold RedisStore.ListPop
      rw [h]
      rfl
    show popSeq s key (xs.length + 1) = x :: xs
    unfold popSeq
    rw [hpop]
    exact congrArg (x :: ·) (ih _ key (by simp))

theorem get_none (s : RedisStore) (key : String) (now : Int) (hd : s.data key = none) :
    (s.Get key now).2 = ("", false) := by
  unfold RedisStore.Get
  rw [hd]

theorem get_some_none (s : RedisStore) (key : String) (now : Int) (v : String)
    (hd : s.data key = some { value := v, expiration := none }) :
    (s.Get key now).2 = (v, true) := by
  unfold RedisStore.Get
  rw [hd]

theorem get_some_exp (s : RedisStore) (key : String) (now : Int) (v : String) (e : Int)
    (hd : s.data key = some { value := v, expiration := some e }) :
    (s.Get key now).2 = if now > e then ("", false) else (v, true) := by
  unfold RedisStore.Get
  rw [hd]
  show (if now > e then (s, ("" : String), false) else (s, v, true)).2 =
    if now > e then ("", false) else (v, true)
  split <;> rfl

/-! ### Claim theorems -/

/-- C2 (code bug): the claim says every command with insufficient arguments
returns an empty or error response and never crashes, but HMSET whose
field/value tokens do not form complete pairs — here `HMSET h f` — reads
cmd.Args[2] out of range and panics the process, modelled as `none`. -/
theorem c2_hmset_incomplete_pairs_panics :
    processCommand (fun l => l) 0 liveStore { Name := "HMSET", Args := ["h", "f"] } = none := by
  rfl

/-- C4: Get reports found=false exactly when no scalar entry exists or the
entry has an expiration set and now is strictly after it; an entry without
expiration never expires, and expiration equal to now is still found. -/
theorem c4_get_expiration (s : RedisStore) (key : String) (now : Int) :
    ((s.Get key now).2.2 = false ↔
      s.data key = none ∨
        ∃ sv e, s.data key = some sv ∧ sv.expiration = some e ∧ now > e) ∧
    (∀ sv, s.data key = some sv → sv.expiration = none →
      (s.Get key now).2 = (sv.value, true)) ∧
    (∀ sv e, s.data key = some sv → sv.expiration = some e → now = e →
      (s.Get key now).2 = (sv.value, true)) := by
  rcases hd : s.data key with _ | ⟨v, _ | e⟩
  · rw [get_none s key now hd]
    refine ⟨⟨fun _ => Or.inl rfl, fun _ => rfl⟩, ?_, ?_⟩
    · intro sv hsv
      exact absurd hsv (by simp)
    · intro sv e hsv
      exact absurd hsv (by simp)
  · rw [get_some_none s key now v hd]
    refine ⟨⟨fun h => by simp at h, ?_⟩, ?_, ?_⟩
    · rintro (h | ⟨sv, e, hsv, hexp, -⟩)
      · exact absurd h (by simp)
      · obtain rfl := Option.some.inj hsv
        exact absurd hexp (by simp)
    · intro sv hsv _
      obtain rfl := Option.some.inj hsv
      rfl
    · intro sv e hsv hexp
      obtain rfl := Option.some.inj hsv
      exact absurd hexp (by simp)
  · rw [get_some_exp s key now v e hd]
    by_cases hgt : now > e
    · rw [if_pos hgt]
      refine ⟨⟨fun _ => Or.inr ⟨_, e, rfl, rfl, hgt⟩, fun _ => rfl⟩, ?_, ?_⟩
      · intro sv hsv hexp
        obtain rfl := Option.some.inj hsv
        exact absurd hexp (by simp)
      · intro sv e2 hsv hexp heq
        obtain rfl := Option.some.inj hsv
        obtain rfl := Option.some.inj hexp
        exact absurd (heq ▸ hgt) (lt_irrefl _)
    · rw [if_neg hgt]
      refine ⟨⟨fun h => by simp at h, ?_⟩, ?_, ?_⟩
      · rintro (h | ⟨sv, e2, hsv, hexp, hgt2⟩)
        · exact absurd h (by simp)
        · obtain rfl := Option.some.inj hsv
          obtain rfl := Option.some.inj hexp
          exact absurd hgt2 hgt
      · intro sv hsv hexp
        obtain rfl := Option.some.inj hsv
        exact absurd hexp (by simp)
      · intro sv e2 hsv hexp heq
        obtain rfl := Option.some.inj hsv
        rfl

/-- C4 witness at a concrete store and time. -/
theorem c4_get_expiration_witness :
    (((c5Store.Get "h.f" 1).2.2 = false ↔
      c5Store.data "h.f" = none ∨
        ∃ sv e, c5Store.data "h.f" = some sv ∧ sv.expiration = some e ∧ (1 : Int) > e) ∧
    (∀ sv, c5Store.data "h.f" = some sv → sv.expiration = none →
      (c5Store.Get "h.f" 1).2 = (sv.value, true)) ∧
    (∀ sv e, c5Store.data "h.f" = some sv → sv.expiration = some e → (1 : Int) = e →
      (c5Store.Get "h.f" 1).2 = (sv.value, true))) :=
  c4_get_expiration c5Store "h.f" 1

/-- C5 counterexample: the claim says Get and FieldGet both report an expired
entry as absent; at time 1 the entry "h.f" (expiration 0) is expired, Get
reports it absent, yet HMGet (FieldGet) reports it present — HMGet never
consults the expiration. -/
theorem c5_counterexample :
    (c5Store.Get "h.f" 1).2 = ("", false) ∧
    (c5Store.HMGet "h" ["f"]).2 = [("f", "v")] := by
  constructor
  · rfl
  · rfl

/-- C5 (amended): Get and FieldGet never modify the store or the log; Get
reports an expired entry as absent while leaving it physically present in
the scalar map; FieldGet ignores expiration and reports any physically
present composite entry. -/
theorem c5_amended (s : RedisStore) (key hkey : String) (fields : List String) (now : Int) :
    (s.Get key now).1 = s ∧
    (s.HMGet hkey fields).1 = s ∧
    (∀ sv e, s.data key = some sv → sv.expiration = some e → now > e →
      (s.Get key now).2 = ("", false) ∧ (s.Get key now).1.data key = some sv) := by
  refine ⟨get_fst s key now, rfl, ?_⟩
  intro sv e hsv hexp hgt
  rw [get_fst]
  refine ⟨?_, hsv⟩
  rw [get_some_exp s key now sv.value e (by rw [hsv, ← hexp]), if_pos hgt]

/-- C5 amended witness at a concrete store. -/
theorem c5_amended_witness :
    ((c5Store.Get "h.f" 1).1 = c5Store ∧
    (c5Store.HMGet "h" ["f"]).1 = c5Store ∧
    (∀ sv e, c5Store.data "h.f" = some sv → sv.expiration = some e → (1 : Int) > e →
      (c5Store.Get "h.f" 1).2 = ("", false) ∧
      (c5Store.Get "h.f" 1).1.data "h.f" = some sv)) :=
  c5_amended c5Store "h.f" "h" ["f"] 1

/-- C6: an engine SET unconditionally overwrites the scalar entry with a
brand-new entry carrying no expiration, so Get finds the new value at every
later time; any prior expiration is cleared. -/
theorem c6_set_clears_expiration (iter : GoMapIter) (now : Int) (s : RedisStore)
    (k v : String) (rest : List String) :
    ∃ s1, processCommand iter now s { Name := "SET", Args := k :: v :: rest } =
        some (s1, "OK") ∧
      s1.data k = some { value := v, expiration := none } ∧
      ∀ t : Int, (s1.Get k t).2 = (v, true) := by
  refine ⟨s.Set k { value := v, expiration := none }, processCommand_set_eq _ _ _ _ _ _, ?_, ?_⟩
  · rw [set_data]
    unfold dataUpd
    rw [if_pos rfl]
  · intro t
    unfold RedisStore.Get
    rw [set_data]
    unfold dataUpd
    rw [if_pos rfl]

/-- C6 witness: SET over an entry that previously carried an expiration. -/
theorem c6_set_clears_expiration_witness :
    ∃ s1, processCommand (fun l => l) 5 c5Store { Name := "SET", Args := ["h.f", "w"] } =
        some (s1, "OK") ∧
      s1.data "h.f" = some { value := "w", expiration := none } ∧
      ∀ t : Int, (s1.Get "h.f" t).2 = ("w", true) :=
  c6_set_clears_expiration (fun l => l) 5 c5Store "h.f" "w" []

/-- C7: ListPush appends at the tail and ListPop removes from the head, so
pops return values in push order; a pop reports not-found exactly when the
list is absent or empty; popping the last element retains the key bound to
the empty sequence rather than deleting it. -/
theorem c7_list_fifo (s : RedisStore) (key v : String) :
    ((s.ListPush key v).listData key = some ((s.listData key).getD [] ++ [v])) ∧
    ((s.ListPop key).2.2 = false ↔ s.listData key = none ∨ s.listData key = some []) ∧
    (∀ x xs, s.listData key = some (x :: xs) →
      s.ListPop key =
        ({ s with listData := fun k => if k = key then some xs else s.listData k }, x, true)) ∧
    (s.listData key = some [v] →
      (s.ListPop key).1.listData key = some [] ∧ (s.ListPop key).2 = (v, true)) ∧
    (∀ l, s.listData key = some l → popSeq s key l.length = l) := by
  refine ⟨?_, ?_, ?_, ?_, fun l h => popSeq_of_list l s key h⟩
  · simp [RedisStore.ListPush]
  · unfold RedisStore.ListPop
    rcases hl : s.listData key with _ | ⟨_ | ⟨x, xs⟩⟩
    · simp
    · simp
    · simp
  · intro x xs h
    unfold RedisStore.ListPop
    rw [h]
    rfl
  · intro h
    have hpop : s.ListPop key =
        ({ s with listData := fun k => if k = key then some [] else s.listData k }, v, true) := by
      unfold RedisStore.ListPop
      rw [h]
      rfl
    rw [hpop]
    exact ⟨by simp, rfl⟩

/-- C7 witness on a store holding the two-element list [a, b] at "q". -/
theorem c7_list_fifo_witness :
    (((c7Store.ListPush "q" "c").listData "q" =
        some ((c7Store.listData "q").getD [] ++ ["c"])) ∧
    ((c7Store.ListPop "q").2.2 = false ↔
      c7Store.listData "q" = none ∨ c7Store.listData "q" = some []) ∧
    (∀ x xs, c7Store.listData "q" = some (x :: xs) →
      c7Store.ListPop "q" =
        ({ c7Store with
            listData := fun k => if k = "q" then some xs else c7Store.listData k }, x, true)) ∧
    (c7Store.listData "q" = some ["c"] →
      (c7Store.ListPop "q").1.listData "q" = some [] ∧
      (c7Store.ListPop "q").2 = ("c", true)) ∧
    (∀ l, c7Store.listData "q" = some l → popSeq c7Store "q" l.length = l)) :=
  c7_list_fifo c7Store "q" "c"

/-- C10: hash fields live in the scalar namespace under key + "." + field:
HMSet stores an ordinary no-expiration scalar entry at the composite key
that a plain Get finds; a plain Set at the composite key creates a field
that FieldGet reports; a scalar Delete of the composite key removes it. -/
theorem c10_shared_namespace (s : RedisStore) (k f v : String) (sv : StoredValue)
    (now : Int) :
    ((s.HMSet k [(f, v)]).data (k ++ "." ++ f) = some { value := v, expiration := none }) ∧
    (((s.HMSet k [(f, v)]).Get (k ++ "." ++ f) now).2 = (v, true)) ∧
    (((s.Set (k ++ "." ++ f) sv).HMGet k [f]).2 = [(f, sv.value)]) ∧
    (((s.Del (k ++ "." ++ f)).HMGet k [f]).2 = []) := by
  have hdata : (s.HMSet k [(f, v)]).data (k ++ "." ++ f) =
      some { value := v, expiration := none } := by
    rw [hmset_cons, hmset_nil, writeAOF_data, setData_data, dataUpd_same]
  refine ⟨hdata, get_some_none _ _ _ _ hdata, ?_, ?_⟩
  · unfold RedisStore.HMGet
    simp only [List.foldl]
    rw [set_data, dataUpd_same]
    rfl
  · unfold RedisStore.HMGet
    simp only [List.foldl]
    rw [del_data, dataUpd_same]

/-- C10 witness at concrete keys/values. -/
theorem c10_shared_namespace_witness :
    ((liveStore.HMSet "h" [("f", "v")]).data ("h" ++ "." ++ "f") =
        some { value := "v", expiration := none }) ∧
    (((liveStore.HMSet "h" [("f", "v")]).Get ("h" ++ "." ++ "f") 7).2 = ("v", true)) ∧
    (((liveStore.Set ("h" ++ "." ++ "f") { value := "w", expiration := some 3 }).HMGet
        "h" ["f"]).2 = [("f", "w")]) ∧
    (((liveStore.Del ("h" ++ "." ++ "f")).HMGet "h" ["f"]).2 = []) :=
  c10_shared_namespace liveStore "h" "f" "v" { value := "w", expiration := some 3 } 7

/-- C8: replay of a missing log file succeeds with the store untouched;
blank, unparseable, and unrecognized lines are skipped without aborting and
without mutating the store; loadAOF returns an error exactly for an open
failure or a scanner failure. -/
theorem c8_replay_errors (iter : GoMapIter) (now : Int) (r : RedisStore) :
    (loadAOF iter now AOFFile.missing r = some ({ r with writeAOFEnabled := false }, false)) ∧
    (loadAOF iter now AOFFile.openFail r = some ({ r with writeAOFEnabled := false }, true)) ∧
    (∀ lines scanFail res, loadAOF iter now (AOFFile.content lines scanFail) r = some res →
      (res.2 = true ↔ scanFail = true)) ∧
    (∀ line rest r2, skippedLine line →
      replayLines iter now (line :: rest) r2 = replayLines iter now rest r2) ∧
    (∀ lines, (∀ line ∈ lines, skippedLine line) →
      loadAOF iter now (AOFFile.content lines false) r =
        some ({ r with writeAOFEnabled := true }, false)) := by
  refine ⟨rfl, rfl, ?_, fun line rest r2 hs => replayLines_skip_one iter now line rest r2 hs, ?_⟩
  · intro lines scanFail res h
    simp only [loadAOF] at h
    rcases hrep : replayLines iter now lines { r with writeAOFEnabled := false } with _ | r1
    · rw [hrep] at h
      exact Option.noConfusion h
    · rw [hrep] at h
      obtain rfl := Option.some.inj h
      exact Iff.rfl
  · intro lines hskip
    simp only [loadAOF]
    rw [replayLines_skipped iter now lines _ hskip]

/-- C8 witness: a log of one blank, one short, and one unrecognized line. -/
theorem c8_replay_errors_witness :
    ((loadAOF (fun l => l) 0 AOFFile.missing liveStore =
        some ({ liveStore with writeAOFEnabled := false }, false)) ∧
    (loadAOF (fun l => l) 0 AOFFile.openFail liveStore =
        some ({ liveStore with writeAOFEnabled := false }, true)) ∧
    (∀ lines scanFail res,
      loadAOF (fun l => l) 0 (AOFFile.content lines scanFail) liveStore = some res →
      (res.2 = true ↔ scanFail = true)) ∧
    (∀ line rest r2, skippedLine line →
      replayLines (fun l => l) 0 (line :: rest) r2 = replayLines (fun l => l) 0 rest r2) ∧
    (∀ lines, (∀ line ∈ lines, skippedLine line) →
      loadAOF (fun l => l) 0 (AOFFile.content lines false) liveStore =
        some ({ liveStore with writeAOFEnabled := true }, false))) :=
  c8_replay_errors (fun l => l) 0 liveStore

/-- C9: during startup replay no record is ever appended to the log — for
every log file state the AOF contents after loadAOF equal those before. -/
theorem c9_replay_never_appends (iter : GoMapIter) (now : Int) (file : AOFFile)
    (r : RedisStore) (res : RedisStore × Bool) (h : loadAOF iter now file r = some res) :
    res.1.aof = r.aof := by
  rcases file with _ | _ | ⟨lines, scanFail⟩
  · obtain rfl := Option.some.inj h
    rfl
  · obtain rfl := Option.some.inj h
    rfl
  · simp only [loadAOF] at h
    rcases hrep : replayLines iter now lines { r with writeAOFEnabled := false } with _ | r1
    · rw [hrep] at h
      exact Option.noConfusion h
    · rw [hrep] at h
      obtain rfl := Option.some.inj h
      exact (replayLines_off iter now lines _ r1 rfl hrep).1

/-- C9 witness: replay of a concrete log leaves the AOF unchanged. -/
theorem c9_replay_never_appends_witness :
    (((loadAOF (fun l => l) 0 (AOFFile.content ["SET a b", "oops", ""] false)
        liveStore).getD ({ liveStore with writeAOFEnabled := false }, true)).1.aof =
      liveStore.aof) := by
  have h : loadAOF (fun l => l) 0 (AOFFile.content ["SET a b", "oops", ""] false) liveStore =
      some (((loadAOF (fun l => l) 0 (AOFFile.content ["SET a b", "oops", ""] false)
        liveStore).getD ({ liveStore with writeAOFEnabled := false }, true))) := rfl
  exact c9_replay_never_appends (fun l => l) 0 _ liveStore _ h

/-- C3 counterexample: the claim as stated (the response text never depends
on anything but the command and the store state) is false: HMGET over two
present fields formats its response in Go map iteration order, and two
valid iteration orders (insertion order and its reverse) give different
response texts on the same store and command. -/
theorem c3_counterexample :
    (processCommand (fun l => l) 0 c3Store
        { Name := "HMGET", Args := ["h", "f1", "f2"] }).map Prod.snd =
      some "[f1 v1 f2 v2]" ∧
    (processCommand (fun l => List.reverse l) 0 c3Store
        { Name := "HMGET", Args := ["h", "f1", "f2"] }).map Prod.snd =
      some "[f2 v2 f1 v1]" := by
  constructor
  · rfl
  · rfl

/-- C3 amended witness: an HMSET run under two different iteration orders. -/
theorem c3_amended_witness :
    obsAgree "HMSET"
      (processCommand (fun l => l) 0 liveStore
        { Name := "HMSET", Args := ["h", "f1", "v1", "f2", "v2"] })
      (processCommand (fun l => List.reverse l) 0 liveStore
        { Name := "HMSET", Args := ["h", "f1", "v1", "f2", "v2"] }) :=
  c3_amended (fun l => l) (fun l => List.reverse l) (fun l => List.Perm.refl l)
    (fun l => List.reverse_perm l) 0 liveStore
    { Name := "HMSET", Args := ["h", "f1", "v1", "f2", "v2"] }

/-- C1 counterexample: the claim as stated fails for EXPIRE: the accepted
command EXPIRE a b 5 (at time 0) is logged as the plain record SET a b, so
the replayed store never expires key "a": at time 6 the original store
reports "a" absent while the replayed store still returns "b". -/
theorem c1_counterexample :
    c1origRun.map (fun s => (s.Get "a" 6).2) = some ("", false) ∧
    c1replayRun.map (fun s => (s.Get "a" 6).2) = some ("b", true) := by
  constructor
  · rfl
  · rfl

/-- C1 (amended): for every sequence of accepted SET, DEL and HMSET commands
(complete field/value pairs, whitespace-free token arguments — EXPIRE is
excluded because its log record drops the expiration), replaying the log
the run produced into a fresh store yields a store observably identical via
Get, FieldGet and list pops, at every query time. -/
theorem c1_amended (iter : GoMapIter) (hiter : ValidIter iter) (now rnow : Int)
    (cmds : List Command) (h : ∀ c ∈ cmds, goodCmd c) :
    ∃ s1 s2, runCommands iter now cmds liveStore = some s1 ∧
      loadAOF iter rnow (AOFFile.content s1.aof false) NewRedisStore = some (s2, false) ∧
      s1.data = s2.data ∧ s1.listData = s2.listData ∧
      (∀ k t, (s1.Get k t).2 = (s2.Get k t).2) ∧
      (∀ k fs, (s1.HMGet k fs).2 = (s2.HMGet k fs).2) ∧
      (∀ k n, popSeq s1 k n = popSeq s2 k n) := by
  obtain ⟨s1, L, hrun, haof, hen, hld, r1, hrep, hd1, hld1, ha1, he1⟩ :=
    c1_sim iter hiter now rnow cmds h liveStore NewRedisStore rfl rfl rfl
  have hdata2 : s1.data = ({ r1 with writeAOFEnabled := true } : RedisStore).data := hd1.symm
  have hlist2 : s1.listData = ({ r1 with writeAOFEnabled := true } : RedisStore).listData := by
    show s1.listData = r1.listData
    rw [hld, hld1]
    rfl
  refine ⟨s1, { r1 with writeAOFEnabled := true }, hrun, ?_, hdata2, hlist2,
    fun k t => get_congr s1 _ hdata2 k t, fun k fs => hmget_congr s1 _ hdata2 k fs,
    fun k n => popSeq_congr n s1 _ k hlist2⟩
  simp only [loadAOF]
  have hsaof : s1.aof = L := by
    rw [haof]
    rfl
  rw [hsaof,
      show ({ NewRedisStore with writeAOFEnabled := false } : RedisStore) = NewRedisStore
        from rfl,
      hrep]

/-- C1 amended witness: a concrete SET, HMSET, DEL run replayed at a later
clock. -/
theorem c1_amended_witness :
    ∃ s1 s2, runCommands (fun l => l) 0
        [{ Name := "SET", Args := ["a", "b"] },
         { Name := "HMSET", Args := ["h", "f", "v"] },
         { Name := "DEL", Args := ["a"] }] liveStore = some s1 ∧
      loadAOF (fun l => l) 9 (AOFFile.content s1.aof false) NewRedisStore = some (s2, false) ∧
      s1.data = s2.data ∧ s1.listData = s2.listData ∧
      (∀ k t, (s1.Get k t).2 = (s2.Get k t).2) ∧
      (∀ k fs, (s1.HMGet k fs).2 = (s2.HMGet k fs).2) ∧
      (∀ k n, popSeq s1 k n = popSeq s2 k n) :=
  c1_amended (fun l => l) (fun l => List.Perm.refl l) 0 9
    [{ Name := "SET", Args := ["a", "b"] },
     { Name := "HMSET", Args := ["h", "f", "v"] },
     { Name := "DEL", Args := ["a"] }] (by decide)
